import Mathlib

/-
Shallow embedding of the HistogramEqualisation OpenCL pipeline
(src/Tutorial 2/kernels/my_kernels.cl, src/Tutorial 2/HistogramEqualisation.cpp,
src/unnamed/part_000, src/unnamed/part_001).

Global device buffers are modelled as total functions `ℕ → ℕ`: a kernel
launch maps the pre-state of its output buffer (the `B₀`-style argument,
holding whatever the buffer contained before the launch) to its post-state.
Indices a launch does not write keep the pre-state value, so frame effects
are visible in the model.  Machine integers are modelled as `ℕ` (all counts,
intensities and cumulative sums in this program are non-negative and far
below 2^31).  `uchar` stores truncate modulo 256, written explicitly.

Double-precision arithmetic appears in two kernels and is modelled by exact
integer arithmetic with floor division:
* `normalise` computes `(int)(value * (double)255 / A[255])`.  Both operands
  are ints; `value * 255 < 2^40 < 2^53`, so the product is exact in double
  and the correctly rounded quotient can never cross an integer boundary
  (the distance from the exact rational `v*255/d` to the next integer is at
  least `1/d`, while the rounding error is at most `v*255/(d*2^53) < 1/d`).
  Hence truncating the double equals `⌊v*255/d⌋`, i.e. `ℕ` floor division.
* `rgb2grey` computes `(int)(r*0.2126 + g*0.71526 + b*0.0722)` in IEEE
  binary64 with one rounding per operation.  Here the rounding is NOT
  negligible: at 18 RGB triples (e.g. (1, 120, 221)) the exact sum is an
  integer and the double evaluation lands just below it, so the stored
  value is one less than the truncation of the exact expression.  The
  arithmetic is therefore embedded exactly: `rnd53` is round-to-nearest,
  ties-to-even at 53 significand bits (exponent unbounded — all values in
  this computation lie far inside the normal range, so binary64 agrees),
  the three weights are the binary64 literals `rnd53` produces from the
  decimal constants, and each multiplication and addition is followed by
  `rnd53`, in the source's left-to-right association.
-/

namespace HistEq

/-- Round a rational to the nearest integer, ties to the even integer —
the tie-breaking rule of IEEE round-to-nearest-even. -/
def roundHalfEven (m : ℚ) : ℤ :=
  if m - ⌊m⌋ < 1 / 2 then ⌊m⌋
  else if 1 / 2 < m - ⌊m⌋ then ⌊m⌋ + 1
  else if 2 ∣ ⌊m⌋ then ⌊m⌋ else ⌊m⌋ + 1

/-- Floor base-2 logarithm of a rational `x ≥ 1` by repeated halving;
`fuel` bounds the recursion and any `fuel` with `x < 2^fuel` is exact. -/
def qlog2up : ℕ → ℚ → ℕ
  | 0, _ => 0
  | f + 1, x => if 2 ≤ x then qlog2up f (x / 2) + 1 else 0

/-- For `0 < x < 1`, the number of doublings needed to reach `[1, 2)`;
`fuel` bounds the recursion and any `fuel` with `1 ≤ x * 2^fuel` is exact. -/
def qlog2dn : ℕ → ℚ → ℕ
  | 0, _ => 0
  | f + 1, x => if x < 1 then qlog2dn f (x * 2) + 1 else 0

/-- Floor base-2 logarithm of a positive rational (the IEEE exponent of its
binade): the unique `e` with `2^e ≤ x < 2^(e+1)`.  The numerator and
denominator of `x` bound the search in the two directions. -/
def qlog2 (x : ℚ) : ℤ :=
  if 1 ≤ x then (qlog2up x.num.natAbs x : ℤ) else -(qlog2dn x.den x : ℤ)

/-- IEEE binary64 round-to-nearest-even of a positive rational: scale into
the binade `[2^52, 2^53)` using the floor base-2 logarithm, round the
53-bit significand to the nearest integer with ties to even, and scale
back.  The exponent is unbounded; every value arising in the `rgb2grey`
computation is far inside binary64's normal range, where this agrees with
the hardware.  Non-positive inputs (only 0 occurs here) map to 0. -/
def rnd53 (x : ℚ) : ℚ :=
  if 0 < x then
    ((roundHalfEven (x * 2 ^ (52 - qlog2 x)) : ℤ) : ℚ) * 2 ^ (qlog2 x - 52)
  else 0

/-- The binary64 value of the source literal `0.2126`. -/
def w2126 : ℚ := rnd53 (2126 / 10000)

/-- The binary64 value of the source literal `0.71526`. -/
def w71526 : ℚ := rnd53 (71526 / 100000)

/-- The binary64 value of the source literal `0.0722`. -/
def w0722 : ℚ := rnd53 (722 / 10000)

/-- The double value computed by `rgb2grey` (my_kernels.cl line 9):
`A[id] * 0.2126 + A[id+N] * 0.71526 + A[id+2N] * 0.0722`, each
multiplication and each addition rounded to binary64, in the source's
left-to-right association (the uchar operands convert to double exactly). -/
def fpLuma (r g b : ℕ) : ℚ :=
  rnd53 (rnd53 (rnd53 ((r : ℚ) * w2126) + rnd53 ((g : ℚ) * w71526))
    + rnd53 ((b : ℚ) * w0722))

/-- The int the kernel stores: the double truncated toward zero, which for
the non-negative values here is the floor. -/
def lumaValFP (r g b : ℕ) : ℕ :=
  Nat.floor (fpLuma r g b)

/-- Kernel `rgb2grey` (my_kernels.cl lines 2-14), launched over `len` work
items on an interleaved R,G,B buffer `A` of length `len`.  Work item `id`
with `id / (len/3) = 0` writes the truncated double luma of pixel `id` to
the three channel positions `id`, `id + len/3`, `id + 2*(len/3)`; all other
work items write nothing, so positions `≥ 3*(len/3)` keep the pre-state
`B₀`. -/
def rgb2greyK (A B₀ : ℕ → ℕ) (len : ℕ) : ℕ → ℕ :=
  fun j =>
    if j < 3 * (len / 3) then
      lumaValFP (A (j % (len / 3))) (A (j % (len / 3) + len / 3))
        (A (j % (len / 3) + 2 * (len / 3))) % 256
    else B₀ j

/-- Kernel `identity` (my_kernels.cl lines 17-20), launched over `len` work
items: `B[id] = A[id]` for every `id < len`. -/
def identityK (A B₀ : ℕ → ℕ) (len : ℕ) : ℕ → ℕ :=
  fun j => if j < len then A j % 256 else B₀ j

/-- One `atomic_inc(&H[v])` on a histogram state. -/
def histIncr (H : ℕ → ℕ) (v : ℕ) : ℕ → ℕ :=
  fun i => if i = v then H i + 1 else H i

/-- The per-work-item reads `A[0..len-1]` of a kernel launched over `len`
work items, as a list of pixel values. -/
def pixelList (A : ℕ → ℕ) (len : ℕ) : List ℕ :=
  (List.range len).map A

/-- Kernel `histogram` (my_kernels.cl lines 23-27): every work item performs
`atomic_inc(&B[A[id]])`.  Increments commute, so the concurrent execution is
modelled as a fold over the pixels in some order; order independence is
proved separately. -/
def naiveHistK (pixels : List ℕ) : ℕ → ℕ :=
  pixels.foldl histIncr (fun _ => 0)

/-- Group-local histogram of kernel `local_global` (part_001 lines 36-65):
the group zero-initialises its local bins, then atomically increments
`LH[A[i]]` for the pixels the group covers. -/
def localHistK (grp : List ℕ) : ℕ → ℕ :=
  grp.foldl histIncr (fun _ => 0)

/-- Combine phase of kernel `local_global`: after the group barrier each
group atomically adds its local bins into the zero-initialised global
histogram, so the global bin `v` holds the sum of the groups' bins `v`. -/
def localGlobalK (groups : List (List ℕ)) : ℕ → ℕ :=
  fun v => (groups.map (fun g => localHistK g v)).sum

/-- One stride round of kernel `cumulativeHistogram` (my_kernels.cl lines
58-62): work item `id < N` writes `B[id] = A[id]` or, when `id ≥ stride`,
`B[id] = A[id] + A[id - stride]`; positions `≥ N` keep the old `B`. -/
def hsRoundWrite (N stride : ℕ) (A B : ℕ → ℕ) : ℕ → ℕ :=
  fun i => if i < N then (if stride ≤ i then A i + A (i - stride) else A i) else B i

/-- Stride loop of kernel `cumulativeHistogram` (my_kernels.cl lines 58-66)
tracking the two physical buffers `X` (passed as input `A`) and `Y` (passed
as the designated output `B`).  The flag `b` records which physical buffer
the kernel's pointer `A` currently names (`b = true`: `A` is `X`).  Each
round writes through pointer `B` and then swaps the two pointers
(`C = A; A = B; B = C`), flipping the flag.  `fuel` bounds the loop; the
stride doubles each round, so `fuel = N` always suffices. -/
def hsPhys (N : ℕ) : ℕ → ℕ → (ℕ → ℕ) → (ℕ → ℕ) → Bool → (ℕ → ℕ) × (ℕ → ℕ)
  | 0, _, X, Y, _ => (X, Y)
  | fuel + 1, stride, X, Y, b =>
    if stride < N then
      if b then hsPhys N fuel (stride * 2) X (hsRoundWrite N stride X Y) false
      else hsPhys N fuel (stride * 2) (hsRoundWrite N stride Y X) Y true
    else (X, Y)

/-- Kernel `cumulativeHistogram` launched over `N` work items on input
buffer `A` and designated output buffer `B`; returns the final contents of
(input buffer, designated output buffer). -/
def cumulativeHistogram (N : ℕ) (A B : ℕ → ℕ) : (ℕ → ℕ) × (ℕ → ℕ) :=
  hsPhys N N 1 A B true

/-- Window sum `c (i+1-s) + ... + c i` (truncated subtraction): the value
held at position `i` between scan rounds. -/
def wsum (c : ℕ → ℕ) (s i : ℕ) : ℕ :=
  ∑ j in Finset.Ico (i + 1 - s) (i + 1), c j

/-- Buffer that holds the completed inclusive scan of `cumulativeHistogram`
run over `N = 2^t` work items: the input buffer after an even number of
rounds, the designated output buffer after an odd number. -/
def hsResult (t : ℕ) (c Y : ℕ → ℕ) : ℕ → ℕ :=
  if t % 2 = 0 then (cumulativeHistogram (2 ^ t) c Y).1
  else (cumulativeHistogram (2 ^ t) c Y).2

/-- Kernel `normalise` (my_kernels.cl lines 71-76), launched over `n` work
items (the hosts hard-code `cl::NDRange(256)`):
`B[id] = value * (double)255 / A[255]` with the double division truncated to
int, which for these operand sizes is exactly `ℕ` floor division (see the
header comment).  The divisor is the literal index 255, not `B - 1`. -/
def normaliseK (A B₀ : ℕ → ℕ) (n : ℕ) : ℕ → ℕ :=
  fun i => if i < n then A i * 255 / A 255 else B₀ i

/-- Kernel `lookup` (my_kernels.cl lines 79-84), launched over `len` work
items: `C[id] = (uchar)B[A[id]]`. -/
def lookupSrcK (A : ℕ → ℕ) (len : ℕ) (lut C₀ : ℕ → ℕ) : ℕ → ℕ :=
  fun id => if id < len then lut (A id) % 256 else C₀ id

/-- Modelled from the spec: the boundary-table binning lookup of §4.2/§4.5.
The kernels taking a bin boundary table (`binsizeBuffer`, part_000 lines
301-307 and 344-346/414-415) are callers' code whose kernel source is not
under src/; per the spec the lookup is a linear scan over the boundary
table, in increasing order, stopping at the first bin `[lo_i, lo_{i+1})`
containing the pixel value. -/
def bin_of : List ℕ → ℕ → ℕ
  | lo :: hi :: rest, p =>
    if lo ≤ p ∧ p < hi then 0 else bin_of (hi :: rest) p + 1
  | _, _ => 0

/-- Modelled from the spec: naive Histogram Builder strategy with
boundary-table binning (§4.2) — every pixel atomically increments the bin
`bin_of` assigns it; the fold order is immaterial (proved separately). -/
def naiveBinnedHist (bs : List ℕ) (pixels : List ℕ) : ℕ → ℕ :=
  (pixels.map (bin_of bs)).foldl histIncr (fun _ => 0)

/-- Modelled from the spec: partitioned Histogram Builder strategy with
boundary-table binning (§4.2) — each group accumulates a private histogram
of its own pixels, then the groups' bins are atomically added into the
global histogram. -/
def partitionedBinnedHist (bs : List ℕ) (groups : List (List ℕ)) : ℕ → ℕ :=
  fun v => (groups.map (fun g => (g.map (bin_of bs)).foldl histIncr (fun _ => 0) v)).sum

/-- Modelled from the spec: the Remapper with boundary-table binning (§4.5)
— every sample is replaced by `normalized[bin_of(value)]`, stored as uchar. -/
def lookupBinnedK (A : ℕ → ℕ) (len : ℕ) (lut : ℕ → ℕ) (bs : List ℕ) (C₀ : ℕ → ℕ) :
    ℕ → ℕ :=
  fun id => if id < len then lut (bin_of bs (A id)) % 256 else C₀ id

/-- Indices into the bin-count array accessed by kernel `histogram`
(my_kernels.cl line 26): work item `id` accesses `B[A[id]]`, so the accessed
indices are exactly the pixel values. -/
def histogramAccesses (pixels : List ℕ) : List ℕ :=
  pixels

/-- Indices into the cumulative/normalised arrays accessed by kernel
`normalise` (my_kernels.cl lines 74-75) launched over `n` work items: work
item `id` reads `A[id]` and `A[255]` and writes `B[id]`. -/
def normaliseAccesses (n : ℕ) : List ℕ :=
  (List.range n).flatMap (fun id => [id, 255, id])

/-- Indices into the normalised lookup array accessed by kernel `lookup`
(my_kernels.cl line 82): work item `id` reads `B[A[id]]`. -/
def lookupAccesses (pixels : List ℕ) : List ℕ :=
  pixels

/-- The five-stage pipeline as wired by HistogramEqualisation.cpp lines
106-177 for a single-channel image of length `len`: `identity` copy, then
`histogram` (the host's `local_global` launch computes the same counts, see
the strategy-equivalence theorem), then `cumulativeHistogram` over the
256-entry histogram, then `normalise` reading the buffer the host passed as
the scan's designated output, then `lookup` applied to the original image.
`scanB₀`, `normB₀`, `outB₀` are the uninitialised pre-states of the
intermediate device buffers; the histogram buffer is zero-filled by the
host (line 104). -/
def pipelineK (img : ℕ → ℕ) (len : ℕ) (scanB₀ normB₀ outB₀ : ℕ → ℕ) : ℕ → ℕ :=
  let grey := identityK img (fun _ => 0) len
  let counts := naiveHistK (pixelList grey len)
  let cum := (cumulativeHistogram 256 counts scanB₀).2
  let norm := normaliseK cum normB₀ 256
  lookupSrcK img len norm outB₀

/-- All-zero buffer pre-state used in concrete instances. -/
def zf : ℕ → ℕ := fun _ => 0

/-- All-ones count array used in concrete instances. -/
def onesF : ℕ → ℕ := fun _ => 1

/-! Window-sum lemmas for the Hillis-Steele rounds. -/

lemma wsum_one (c : ℕ → ℕ) (i : ℕ) : wsum c 1 i = c i := by
  simp [wsum]

lemma wsum_of_lt (c : ℕ → ℕ) {s i : ℕ} (h : i < s) :
    wsum c s i = ∑ j in Finset.range (i + 1), c j := by
  have h0 : i + 1 - s = 0 := by omega
  rw [wsum, h0, Finset.range_eq_Ico]

lemma wsum_small (c : ℕ → ℕ) {s i : ℕ} (h : i < s) :
    wsum c s i = wsum c (2 * s) i := by
  have h1 : i + 1 - s = 0 := by omega
  have h2 : i + 1 - 2 * s = 0 := by omega
  rw [wsum, wsum, h1, h2]

lemma wsum_double (c : ℕ → ℕ) {s i : ℕ} (h : s ≤ i) :
    wsum c s (i - s) + wsum c s i = wsum c (2 * s) i := by
  have key : (∑ j in Finset.Ico (i + 1 - 2 * s) (i + 1 - s), c j) +
      ∑ j in Finset.Ico (i + 1 - s) (i + 1), c j =
      ∑ j in Finset.Ico (i + 1 - 2 * s) (i + 1), c j :=
    Finset.sum_Ico_consecutive c (by omega) (by omega)
  have e1 : i - s + 1 - s = i + 1 - 2 * s := by omega
  have e2 : i - s + 1 = i + 1 - s := by omega
  rw [wsum, wsum, wsum, e1, e2]
  exact key

/-- The pointer swap commutes with exchanging the two physical buffers. -/
lemma hsPhys_swap (N : ℕ) : ∀ (fuel stride : ℕ) (X Y : ℕ → ℕ),
    hsPhys N fuel stride X Y false = Prod.swap (hsPhys N fuel stride Y X true) := by
  intro fuel
  induction fuel with
  | zero => intro stride X Y; rfl
  | succ f ih =>
    intro stride X Y
    by_cases h : stride < N
    · simp only [hsPhys, h, if_true, Bool.false_eq_true, if_false]
      rw [ih]
      simp
    · simp [hsPhys, h]

/-- Main loop invariant of the Hillis-Steele scan over `N = 2^t` work items.
Entering the loop with stride `2^k` (so `d = t - k` rounds remain) and the
logical input pointer `A` naming buffer `X` whose live region holds the
`2^k`-window sums of the original counts `c`, the loop ends with the
completed inclusive scan in the buffer the flag parity designates, and the
other buffer holding the penultimate round's `2^(t-1)`-window sums. -/
lemma hsPhys_go (c : ℕ → ℕ) (t : ℕ) :
    ∀ d k fuel (X Y : ℕ → ℕ), k + d = t → d ≤ fuel →
      (∀ i, i < 2 ^ t → X i = wsum c (2 ^ k) i) →
      ((d % 2 = 0 → ∀ i, i < 2 ^ t →
          (hsPhys (2 ^ t) fuel (2 ^ k) X Y true).1 i = ∑ j in Finset.range (i + 1), c j) ∧
       (d % 2 = 1 → ∀ i, i < 2 ^ t →
          (hsPhys (2 ^ t) fuel (2 ^ k) X Y true).2 i = ∑ j in Finset.range (i + 1), c j) ∧
       (1 ≤ d → d % 2 = 0 → ∀ i, i < 2 ^ t →
          (hsPhys (2 ^ t) fuel (2 ^ k) X Y true).2 i = wsum c (2 ^ (t - 1)) i) ∧
       (1 ≤ d → d % 2 = 1 → ∀ i, i < 2 ^ t →
          (hsPhys (2 ^ t) fuel (2 ^ k) X Y true).1 i = wsum c (2 ^ (t - 1)) i) ∧
       (d = 0 → hsPhys (2 ^ t) fuel (2 ^ k) X Y true = (X, Y))) := by
  intro d
  induction d with
  | zero =>
    intro k fuel X Y hk hfuel hX
    have hkt : k = t := by omega
    subst hkt
    have hres : hsPhys (2 ^ k) fuel (2 ^ k) X Y true = (X, Y) := by
      cases fuel with
      | zero => rfl
      | succ f => simp [hsPhys]
    refine ⟨?_, fun h => absurd h (by omega), fun h => absurd h (by omega),
      fun h => absurd h (by omega), fun _ => hres⟩
    intro _ i hi
    rw [hres]
    show X i = ∑ j in Finset.range (i + 1), c j
    rw [hX i hi, wsum_of_lt c hi]
  | succ d ih =>
    intro k fuel X Y hk hfuel hX
    have hklt : k < t := by omega
    have hstride : (2 : ℕ) ^ k < 2 ^ t := Nat.pow_lt_pow_right (by norm_num) hklt
    obtain ⟨f, rfl⟩ : ∃ f, fuel = f + 1 := ⟨fuel - 1, by omega⟩
    have hW : ∀ i, i < 2 ^ t →
        hsRoundWrite (2 ^ t) (2 ^ k) X Y i = wsum c (2 ^ (k + 1)) i := by
      intro i hi
      have hpow : (2 : ℕ) ^ (k + 1) = 2 * 2 ^ k := by ring
      rw [hsRoundWrite, if_pos hi, hpow]
      by_cases hs : 2 ^ k ≤ i
      · rw [if_pos hs, hX i hi, hX (i - 2 ^ k) (by omega), add_comm]
        exact wsum_double c hs
      · rw [if_neg hs, hX i hi]
        exact wsum_small c (by omega)
    have hstep : hsPhys (2 ^ t) (f + 1) (2 ^ k) X Y true
        = Prod.swap (hsPhys (2 ^ t) f (2 ^ (k + 1))
            (hsRoundWrite (2 ^ t) (2 ^ k) X Y) X true) := by
      have h2 : (2 : ℕ) ^ k * 2 = 2 ^ (k + 1) := (pow_succ 2 k).symm
      simp only [hsPhys, hstride, if_true]
      rw [h2, hsPhys_swap]
    obtain ⟨A1, A2, B1, B2, C0⟩ :=
      ih (k + 1) f (hsRoundWrite (2 ^ t) (2 ^ k) X Y) X (by omega) (by omega) hW
    rw [hstep]
    refine ⟨?_, ?_, ?_, ?_, by omega⟩
    · intro hpar i hi
      simp only [Prod.fst_swap]
      exact A2 (by omega) i hi
    · intro hpar i hi
      simp only [Prod.snd_swap]
      exact A1 (by omega) i hi
    · intro _ hpar i hi
      simp only [Prod.snd_swap]
      rcases Nat.eq_zero_or_pos d with hd | hd
      · omega
      · exact B2 (by omega) (by omega) i hi
    · intro _ hpar i hi
      simp only [Prod.fst_swap]
      rcases Nat.eq_zero_or_pos d with hd | hd
      · subst hd
        rw [C0 rfl]
        have hkt : k = t - 1 := by omega
        show X i = wsum c (2 ^ (t - 1)) i
        rw [hX i hi, hkt]
      · exact B1 (by omega) (by omega) i hi

/-- Scan result over `N = 2^t` work items, split by round-count parity:
after the `t` rounds the buffer designated by the parity holds the full
inclusive prefix sums, the other buffer the `2^(t-1)`-window sums. -/
lemma cumulativeHistogram_powTwo (c Y : ℕ → ℕ) (t : ℕ) :
    (t % 2 = 0 → ∀ i, i < 2 ^ t →
        (cumulativeHistogram (2 ^ t) c Y).1 i = ∑ j in Finset.range (i + 1), c j) ∧
    (t % 2 = 1 → ∀ i, i < 2 ^ t →
        (cumulativeHistogram (2 ^ t) c Y).2 i = ∑ j in Finset.range (i + 1), c j) ∧
    (1 ≤ t → t % 2 = 0 → ∀ i, i < 2 ^ t →
        (cumulativeHistogram (2 ^ t) c Y).2 i = wsum c (2 ^ (t - 1)) i) ∧
    (1 ≤ t → t % 2 = 1 → ∀ i, i < 2 ^ t →
        (cumulativeHistogram (2 ^ t) c Y).1 i = wsum c (2 ^ (t - 1)) i) := by
  have hX : ∀ i, i < 2 ^ t → c i = wsum c (2 ^ 0) i := by
    intro i _
    rw [pow_zero, wsum_one]
  have h := hsPhys_go c t t 0 (2 ^ t) c Y (by omega) (Nat.le_of_lt (Nat.lt_two_pow t)) hX
  have hone : (2 : ℕ) ^ 0 = 1 := pow_zero 2
  rw [hone] at h
  exact ⟨h.1, h.2.1, h.2.2.1, h.2.2.2.1⟩

/-- With 256 bins the scan performs 8 rounds, so the completed inclusive
prefix sums end up in the buffer the host passed as input. -/
lemma scan256_fst (c Y : ℕ → ℕ) (i : ℕ) (hi : i < 256) :
    (cumulativeHistogram 256 c Y).1 i = ∑ j in Finset.range (i + 1), c j := by
  have h256 : (256 : ℕ) = 2 ^ 8 := by norm_num
  rw [h256] at hi ⊢
  exact (cumulativeHistogram_powTwo c Y 8).1 rfl i hi

/-- With 256 bins the designated output buffer ends holding the penultimate
round, the 128-window sums. -/
lemma scan256_snd (c Y : ℕ → ℕ) (i : ℕ) (hi : i < 256) :
    (cumulativeHistogram 256 c Y).2 i = wsum c 128 i := by
  have h256 : (256 : ℕ) = 2 ^ 8 := by norm_num
  have h128 : (128 : ℕ) = 2 ^ (8 - 1) := by norm_num
  rw [h256] at hi ⊢
  rw [h128]
  exact (cumulativeHistogram_powTwo c Y 8).2.2.1 (by omega) rfl i hi

/-! Histogram counting lemmas: a fold of atomic increments counts value
multiplicities, independently of the interleaving order. -/

lemma foldl_histIncr_eq (l : List ℕ) : ∀ (H : ℕ → ℕ) (v : ℕ),
    l.foldl histIncr H v = H v + l.count v := by
  induction l with
  | nil => intro H v; simp
  | cons p l ih =>
    intro H v
    rw [List.foldl_cons, ih, List.count_cons]
    by_cases h : v = p
    · subst h
      simp [histIncr]
      omega
    · simp [histIncr, h, Ne.symm h]

lemma naiveHistK_count (pixels : List ℕ) (v : ℕ) :
    naiveHistK pixels v = pixels.count v := by
  rw [naiveHistK, foldl_histIncr_eq]
  omega

lemma localHistK_count (grp : List ℕ) (v : ℕ) :
    localHistK grp v = grp.count v := by
  rw [localHistK, foldl_histIncr_eq]
  omega

lemma localGlobalK_count (groups : List (List ℕ)) (v : ℕ) :
    localGlobalK groups v = groups.flatten.count v := by
  induction groups with
  | nil => simp [localGlobalK]
  | cons g gs ih =>
    rw [localGlobalK, List.map_cons, List.sum_cons, List.flatten_cons,
      List.count_append, localHistK_count]
    rw [localGlobalK] at ih
    rw [ih]

/-! Boundary-table binning (modelled from the spec) and its
characterisation. -/

lemma chain_head_le : ∀ (l : List ℕ) (x : ℕ), (x :: l).Chain' (· < ·) →
    ∀ j, j < (x :: l).length → x ≤ (x :: l).getD j 0 := by
  intro l
  induction l with
  | nil =>
    intro x _ j hj
    have hj0 : j = 0 := by simpa using hj
    subst hj0
    simp
  | cons y rest ih =>
    intro x hch j hj
    rw [List.chain'_cons] at hch
    cases j with
    | zero => simp
    | succ j' =>
      have h1 : (x :: y :: rest).getD (j' + 1) 0 = (y :: rest).getD j' 0 := rfl
      rw [h1]
      exact le_trans (le_of_lt hch.1) (ih y hch.2 j' (by simpa using hj))

lemma bin_of_spec : ∀ (b : ℕ) (bs : List ℕ) (p : ℕ), bs.Chain' (· < ·) →
    b + 1 < bs.length → bs.getD b 0 ≤ p → p < bs.getD (b + 1) 0 →
    bin_of bs p = b := by
  intro b
  induction b with
  | zero =>
    intro bs p hch hlen hlo hhi
    match bs, hlen with
    | lo :: hi :: rest, _ =>
      rw [bin_of, if_pos]
      exact ⟨hlo, hhi⟩
  | succ c ih =>
    intro bs p hch hlen hlo hhi
    match bs, hlen with
    | lo :: hi :: rest, hlen =>
      have htail : (hi :: rest).Chain' (· < ·) := (List.chain'_cons.mp hch).2
      have hcl : c < (hi :: rest).length := by
        simp only [List.length_cons] at hlen ⊢
        omega
      have hhp : hi ≤ p :=
        le_trans (chain_head_le rest hi htail c hcl) hlo
      rw [bin_of, if_neg (by omega)]
      have := ih (hi :: rest) p htail (by simpa using hlen) hlo hhi
      omega

lemma bins_exhaustive : ∀ (B : ℕ) (bs : List ℕ) (p : ℕ), bs.length = B + 1 →
    bs.getD 0 0 ≤ p → p < bs.getD B 0 →
    ∃ b, b < B ∧ bs.getD b 0 ≤ p ∧ p < bs.getD (b + 1) 0 := by
  intro B
  induction B with
  | zero =>
    intro bs p hlen h0 hB
    omega
  | succ B' ih =>
    intro bs p hlen h0 hB
    match bs with
    | x :: rest =>
      have hrl : rest.length = B' + 1 := by simpa using hlen
      by_cases hca : p < rest.getD 0 0
      · exact ⟨0, by omega, h0, hca⟩
      · obtain ⟨b', hb', hlo, hhi⟩ := ih rest p hrl (by omega) hB
        exact ⟨b' + 1, by omega, hlo, hhi⟩

/-- Under a valid boundary table, `bin_of` is characterised exactly by the
half-open bin ranges. -/
lemma bin_of_eq_iff (B : ℕ) (bs : List ℕ) (p b : ℕ) (hlen : bs.length = B + 1)
    (hch : bs.Chain' (· < ·)) (h0 : bs.getD 0 0 ≤ p) (hB : p < bs.getD B 0)
    (hb : b < B) :
    bin_of bs p = b ↔ (bs.getD b 0 ≤ p ∧ p < bs.getD (b + 1) 0) := by
  constructor
  · intro heq
    obtain ⟨b₀, hb₀, hlo, hhi⟩ := bins_exhaustive B bs p hlen h0 hB
    have := bin_of_spec b₀ bs p hch (by omega) hlo hhi
    have hbb : b = b₀ := by omega
    subst hbb
    exact ⟨hlo, hhi⟩
  · intro ⟨hlo, hhi⟩
    exact bin_of_spec b bs p hch (by omega) hlo hhi

lemma bin_of_lt (B : ℕ) (bs : List ℕ) (p : ℕ) (hlen : bs.length = B + 1)
    (hch : bs.Chain' (· < ·)) (h0 : bs.getD 0 0 ≤ p) (hB : p < bs.getD B 0) :
    bin_of bs p < B := by
  obtain ⟨b₀, hb₀, hlo, hhi⟩ := bins_exhaustive B bs p hlen h0 hB
  have := bin_of_spec b₀ bs p hch (by omega) hlo hhi
  omega

/-- Multiplicity of bin `b` in the image of `f` over a list, as a `countP`
of the preimage. -/
lemma count_map_eq_countP (f : ℕ → ℕ) (b : ℕ) : ∀ (l : List ℕ),
    (l.map f).count b = l.countP (fun p => decide (f p = b)) := by
  intro l
  induction l with
  | nil => simp
  | cons a l ih =>
    rw [List.map_cons, List.count_cons, List.countP_cons, ih]
    by_cases h : f a = b
    · simp [h]
    · simp [h]

/-- Every element falls in exactly one of `B` bins, so the bin counts sum
to the list length. -/
lemma countP_bins_sum (f : ℕ → ℕ) (B : ℕ) : ∀ (l : List ℕ),
    (∀ p ∈ l, f p < B) →
    (∑ b in Finset.range B, l.countP (fun p => decide (f p = b))) = l.length := by
  intro l
  induction l with
  | nil => simp
  | cons a l ih =>
    intro hmem
    have ha : f a < B := hmem a (List.mem_cons_self a l)
    simp only [List.countP_cons]
    rw [Finset.sum_add_distrib, ih (fun p hp => hmem p (List.mem_cons_of_mem a hp))]
    have : (∑ b in Finset.range B, if (fun p => decide (f p = b)) a then 1 else 0) = 1 := by
      have h1 : ∀ b ∈ Finset.range B,
          (if (fun p => decide (f p = b)) a then 1 else 0) = if f a = b then 1 else 0 := by
        intro b _
        simp
      rw [Finset.sum_congr rfl h1, Finset.sum_ite_eq]
      simp [ha]
    rw [this, List.length_cons]

/-- Length-4 cumulative array `[1, 2, 3, 4]` (positive last entry, value 4
at index 3) stored at indices 0..3, surrounding memory zero. -/
def cum4 : ℕ → ℕ := fun i => if i < 4 then i + 1 else 0

/-! Claim C1. -/

/-- C1, counterexample: for the all-ones count array of length B = 256 the
designated output buffer of the scan does not hold the inclusive prefix
sums — its last entry is the 128-window sum 128, not the total 256, because
after the 8th (even) round the completed scan sits in the input buffer. -/
theorem c1_output_buffer_not_scan :
    (cumulativeHistogram 256 onesF zf).2 255 ≠ ∑ j in Finset.range 256, onesF j := by
  have h1 : (cumulativeHistogram 256 onesF zf).2 255 = 128 := by decide
  have h2 : ∑ j in Finset.range 256, onesF j = 256 := by simp [onesF]
  omega

/-- C1, amended: for every count array of length `B = 2^t` the scan does
compute the inclusive prefix sums — `cumulative[i] = counts[0] + ... +
counts[i]`, `cumulative[B-1]` is the total, and `cumulative[i] =
cumulative[i-1] + counts[i]` for `i > 0` — but the completed result resides
in the designated output buffer only when the round count `t` is odd; for
even `t` (e.g. the default B = 256, 8 rounds) it resides in the buffer
passed as input (`hsResult` selects the buffer by parity). -/
theorem c1_scan_result_is_prefix_sums (t : ℕ) (c Y : ℕ → ℕ) :
    (∀ i, i < 2 ^ t → hsResult t c Y i = ∑ j in Finset.range (i + 1), c j) ∧
    hsResult t c Y (2 ^ t - 1) = ∑ j in Finset.range (2 ^ t), c j ∧
    (∀ i, 0 < i → i < 2 ^ t → hsResult t c Y i = hsResult t c Y (i - 1) + c i) := by
  have hpos : 0 < 2 ^ t := pow_pos (by norm_num) t
  have main : ∀ i, i < 2 ^ t → hsResult t c Y i = ∑ j in Finset.range (i + 1), c j := by
    intro i hi
    rcases Nat.mod_two_eq_zero_or_one t with h | h
    · rw [hsResult, if_pos h]
      exact (cumulativeHistogram_powTwo c Y t).1 h i hi
    · rw [hsResult, if_neg (by omega)]
      exact (cumulativeHistogram_powTwo c Y t).2.1 h i hi
  refine ⟨main, ?_, ?_⟩
  · have h1 : 2 ^ t - 1 + 1 = 2 ^ t := by omega
    rw [main (2 ^ t - 1) (by omega), h1]
  · intro i h0 hi
    rw [main i hi, main (i - 1) (by omega)]
    have h1 : i - 1 + 1 = i := by omega
    rw [h1, ← Finset.sum_range_succ]

/-- C1, witness at t = 2, the all-ones count array, index 2. -/
theorem c1_scan_result_witness :
    (2 : ℕ) < 2 ^ 2 ∧ hsResult 2 onesF zf 2 = ∑ j in Finset.range (2 + 1), onesF j :=
  ⟨by norm_num, (c1_scan_result_is_prefix_sums 2 onesF zf).1 2 (by norm_num)⟩

/-! Claim C9. -/

/-- C9: the scan does not leave the input count buffer unchanged.  With
B = 256 (8 rounds) the pointer swap leaves the completed inclusive prefix
sums in the buffer originally passed as input, while the designated output
buffer holds the penultimate round (the 128-window sums); concretely, on
the all-ones count array the input buffer's entry 1 has been overwritten
from 1 to 2. -/
theorem c9_input_buffer_overwritten :
    (∀ (c Y : ℕ → ℕ) (i : ℕ), i < 256 →
        (cumulativeHistogram 256 c Y).1 i = ∑ j in Finset.range (i + 1), c j ∧
        (cumulativeHistogram 256 c Y).2 i = wsum c 128 i) ∧
    (cumulativeHistogram 256 onesF zf).1 1 ≠ onesF 1 := by
  refine ⟨fun c Y i hi => ⟨scan256_fst c Y i hi, scan256_snd c Y i hi⟩, ?_⟩
  decide

/-- C9, witness at the all-ones count array, index 0. -/
theorem c9_input_buffer_witness :
    (0 : ℕ) < 256 ∧
    ((cumulativeHistogram 256 onesF zf).1 0 = ∑ j in Finset.range (0 + 1), onesF j ∧
     (cumulativeHistogram 256 onesF zf).2 0 = wsum onesF 128 0) :=
  ⟨by norm_num, c9_input_buffer_overwritten.1 onesF zf 0 (by norm_num)⟩

/-! Claim C2. -/

/-- C2, counterexample: on the length-4 cumulative array `[1, 2, 3, 4]`
(positive last entry 4 at index B - 1 = 3) the normalise kernel does not
produce `floor(cumulative[0] * 255 / cumulative[3]) = 63` at index 0: it
divides by the fixed index 255, which lies outside the array (here holding
0), so the output is 0. -/
theorem c2_divisor_not_last_entry :
    normaliseK cum4 zf 256 0 ≠ Nat.floor ((cum4 0 * 255 : ℚ) / (cum4 3 : ℚ)) := by
  have hcast : ((cum4 0 : ℚ) * 255) = ((cum4 0 * 255 : ℕ) : ℚ) := by push_cast; ring
  rw [hcast, Nat.floor_div_nat, Nat.floor_natCast]
  decide

/-- C2, amended: with B = 256 — so that the kernel's fixed divisor index
255 is the last entry of the array — the normalise kernel produces, at
every index `i < 256`, exactly `floor(cumulative[i] * 255 /
cumulative[255])`, and writes nothing outside indices 0..255. -/
theorem c2_normalise_floor_256 (A B₀ : ℕ → ℕ) (h255 : 0 < A 255) :
    (∀ i, i < 256 →
        normaliseK A B₀ 256 i = Nat.floor ((A i * 255 : ℚ) / (A 255 : ℚ))) ∧
    (∀ j, 256 ≤ j → normaliseK A B₀ 256 j = B₀ j) := by
  constructor
  · intro i hi
    have hcast : ((A i : ℚ) * 255) = ((A i * 255 : ℕ) : ℚ) := by push_cast; ring
    rw [hcast, Nat.floor_div_nat, Nat.floor_natCast, normaliseK, if_pos hi]
  · intro j hj
    rw [normaliseK, if_neg (by omega)]

/-- C2, witness on the all-ones cumulative array at index 0. -/
theorem c2_normalise_floor_witness :
    0 < onesF 255 ∧
    normaliseK onesF zf 256 0 = Nat.floor ((onesF 0 * 255 : ℚ) / (onesF 255 : ℚ)) :=
  ⟨by decide, (c2_normalise_floor_256 onesF zf (by decide)).1 0 (by decide)⟩

/-! Claim C4. -/

/-- C4: the naive strategy (`histogram`, one global atomic increment per
pixel) and the partitioned strategy (`local_global`, group-local
accumulation then a global combine) produce identical count arrays on the
same input — for any distribution of the pixels into work groups — and each
strategy is deterministic: any interleaving of the commuting atomic
increments (modelled as any permutation of the pixel processing order)
yields the same counts. -/
theorem c4_strategies_agree_deterministic :
    (∀ (pixels : List ℕ) (groups : List (List ℕ)), groups.flatten.Perm pixels →
        ∀ v, localGlobalK groups v = naiveHistK pixels v) ∧
    (∀ (l₁ l₂ : List ℕ), l₁.Perm l₂ → ∀ v, naiveHistK l₁ v = naiveHistK l₂ v) := by
  constructor
  · intro pixels groups hperm v
    rw [localGlobalK_count, naiveHistK_count, hperm.count_eq]
  · intro l₁ l₂ hperm v
    rw [naiveHistK_count, naiveHistK_count, hperm.count_eq]

/-- C4, witness: the pixels `[1, 1, 2]` split into groups `[[1], [2, 1]]`. -/
theorem c4_strategies_witness :
    ([[1], [2, 1]] : List (List ℕ)).flatten.Perm [1, 1, 2] ∧
    localGlobalK [[1], [2, 1]] 1 = naiveHistK [1, 1, 2] 1 :=
  ⟨by decide, c4_strategies_agree_deterministic.1 [1, 1, 2] [[1], [2, 1]] (by decide) 1⟩

/-! Claim C3. -/

/-- C3 (spec-modelled binning): for a valid boundary table
`lo_0 = 0 < ... < lo_B = 256` and pixels below 256, both Histogram Builder
strategies count, in bin `b`, exactly the pixels `p` with
`lo_b ≤ p < lo_{b+1}`, and the bin counts sum to the pixel count. -/
theorem c3_histogram_bin_counts (B : ℕ) (bs : List ℕ) (pixels : List ℕ)
    (hlen : bs.length = B + 1) (hch : bs.Chain' (· < ·))
    (h0 : bs.getD 0 0 = 0) (hB : bs.getD B 0 = 256)
    (hpix : ∀ p ∈ pixels, p < 256) :
    (∀ b, b < B → naiveBinnedHist bs pixels b
        = pixels.countP (fun p => decide (bs.getD b 0 ≤ p ∧ p < bs.getD (b + 1) 0))) ∧
    (∀ (groups : List (List ℕ)), groups.flatten.Perm pixels → ∀ b, b < B →
        partitionedBinnedHist bs groups b
        = pixels.countP (fun p => decide (bs.getD b 0 ≤ p ∧ p < bs.getD (b + 1) 0))) ∧
    (∑ b in Finset.range B, naiveBinnedHist bs pixels b) = pixels.length := by
  have hbound : ∀ p ∈ pixels, bs.getD 0 0 ≤ p ∧ p < bs.getD B 0 := by
    intro p hp
    constructor
    · rw [h0]; exact Nat.zero_le p
    · rw [hB]; exact hpix p hp
  have hnaive : ∀ b, b < B → naiveBinnedHist bs pixels b
      = pixels.countP (fun p => decide (bs.getD b 0 ≤ p ∧ p < bs.getD (b + 1) 0)) := by
    intro b hb
    have h1 : naiveBinnedHist bs pixels b = (pixels.map (bin_of bs)).count b :=
      naiveHistK_count (pixels.map (bin_of bs)) b
    rw [h1, count_map_eq_countP]
    refine List.countP_congr ?_
    intro p hp
    simpa using bin_of_eq_iff B bs p b hlen hch (hbound p hp).1 (hbound p hp).2 hb
  refine ⟨hnaive, ?_, ?_⟩
  · intro groups hperm b hb
    have hpg : ∀ v, partitionedBinnedHist bs groups v
        = localGlobalK (groups.map (fun g => g.map (bin_of bs))) v := by
      intro v
      rw [partitionedBinnedHist, localGlobalK, List.map_map]
      rfl
    rw [hpg, localGlobalK_count, ← List.map_flatten, (hperm.map (bin_of bs)).count_eq,
      count_map_eq_countP]
    refine List.countP_congr ?_
    intro p hp
    simpa using bin_of_eq_iff B bs p b hlen hch (hbound p hp).1 (hbound p hp).2 hb
  · have hlt : ∀ p ∈ pixels, bin_of bs p < B := by
      intro p hp
      exact bin_of_lt B bs p hlen hch (hbound p hp).1 (hbound p hp).2
    have hsum : ∀ b ∈ Finset.range B, naiveBinnedHist bs pixels b
        = pixels.countP (fun p => decide (bin_of bs p = b)) := by
      intro b _
      rw [show naiveBinnedHist bs pixels b = (pixels.map (bin_of bs)).count b from
        naiveHistK_count (pixels.map (bin_of bs)) b, count_map_eq_countP]
    rw [Finset.sum_congr rfl hsum]
    exact countP_bins_sum (bin_of bs) B pixels hlt

/-- C3, witness: two uniform bins `[0, 128, 256]` over pixels
`[5, 200, 100]`. -/
theorem c3_histogram_witness :
    naiveBinnedHist [0, 128, 256] [5, 200, 100] 0
      = List.countP
          (fun p => decide ((([0, 128, 256] : List ℕ).getD 0 0) ≤ p ∧
            p < (([0, 128, 256] : List ℕ).getD (0 + 1) 0))) [5, 200, 100] :=
  (c3_histogram_bin_counts 2 [0, 128, 256] [5, 200, 100] (by decide)
    (by norm_num [List.chain'_cons]) (by decide) (by decide) (by decide)).1 0 (by decide)

/-! Claim C5. -/

/-- C5 (spec-modelled binning): for a valid boundary table the Remapper
replaces every sample `id < len` whose value lies in bin `b` — i.e.
`lo_b ≤ A[id] < lo_{b+1}`, the same binning the Histogram Builder uses — by
`normalized[b]`, and writes nothing outside the `len` samples. -/
theorem c5_remapper_lookup (A : ℕ → ℕ) (len : ℕ) (lut : ℕ → ℕ) (B : ℕ)
    (bs : List ℕ) (C₀ : ℕ → ℕ) (hlen : bs.length = B + 1)
    (hch : bs.Chain' (· < ·)) :
    (∀ id, id < len → ∀ b, b < B → lut b < 256 →
        bs.getD b 0 ≤ A id → A id < bs.getD (b + 1) 0 →
        lookupBinnedK A len lut bs C₀ id = lut b) ∧
    (∀ j, len ≤ j → lookupBinnedK A len lut bs C₀ j = C₀ j) := by
  constructor
  · intro id hid b hb hlut hlo hhi
    rw [lookupBinnedK, if_pos hid, bin_of_spec b bs (A id) hch (by omega) hlo hhi,
      Nat.mod_eq_of_lt hlut]
  · intro j hj
    rw [lookupBinnedK, if_neg (by omega)]

/-- C5, witness: bins `[0, 128, 256]`, lookup table mapping bin 1 to 255,
samples `[200]`. -/
theorem c5_remapper_witness :
    lookupBinnedK (fun _ => 200) 1 (fun b => if b = 1 then 255 else 0) [0, 128, 256]
      zf 0 = (fun b => if b = 1 then 255 else 0) 1 :=
  (c5_remapper_lookup (fun _ => 200) 1 (fun b => if b = 1 then 255 else 0) 2
    [0, 128, 256] zf (by decide) (by norm_num [List.chain'_cons])).1 0 (by decide) 1 (by decide)
    (by decide) (by decide) (by decide)

/-! Claim C6. -/

/-- C6, counterexample: B = 128 divides 256, yet the normalise kernel —
launched by the host over a fixed 256 work items — accesses index 255 of
the cumulative array on every run, and 255 is not below 128, so the access
is out of bounds for a length-128 array. -/
theorem c6_out_of_bounds_below_256 :
    (128 ∣ 256) ∧ 255 ∈ normaliseAccesses 256 ∧ ¬(255 < 128) := by
  refine ⟨⟨2, rfl⟩, ?_, by omega⟩
  decide

/-- C6, amended: with the default B = 256 every index the histogram,
normalise and lookup kernels use on the count/cumulative/normalised arrays
is below 256, for every valid 8-bit image. -/
theorem c6_accesses_in_bounds_at_256 (pixels : List ℕ)
    (hpix : ∀ p ∈ pixels, p < 256) :
    (∀ idx ∈ histogramAccesses pixels, idx < 256) ∧
    (∀ idx ∈ normaliseAccesses 256, idx < 256) ∧
    (∀ idx ∈ lookupAccesses pixels, idx < 256) := by
  refine ⟨hpix, ?_, hpix⟩
  intro idx hidx
  rw [normaliseAccesses, List.mem_flatMap] at hidx
  obtain ⟨id, hid, hmem⟩ := hidx
  rw [List.mem_range] at hid
  simp only [List.mem_cons, List.mem_singleton] at hmem
  rcases hmem with h | h | h
  · omega
  · omega
  · simp at h
    omega

/-- C6, witness on the two-pixel image `[3, 250]`. -/
theorem c6_accesses_witness :
    (∀ idx ∈ histogramAccesses [3, 250], idx < 256) ∧
    (∀ idx ∈ normaliseAccesses 256, idx < 256) ∧
    (∀ idx ∈ lookupAccesses [3, 250], idx < 256) :=
  c6_accesses_in_bounds_at_256 [3, 250] (by decide)

/-! Rounding lemmas for the binary64 model, shared by C8 and C10. -/

lemma roundHalfEven_nonneg {m : ℚ} (hm : 0 ≤ m) : 0 ≤ roundHalfEven m := by
  have h0 : (0 : ℤ) ≤ ⌊m⌋ := Int.floor_nonneg.mpr hm
  rw [roundHalfEven]
  split_ifs <;> omega

lemma roundHalfEven_le (m : ℚ) : (roundHalfEven m : ℚ) ≤ m + 1 / 2 := by
  have h1 : (⌊m⌋ : ℚ) ≤ m := Int.floor_le m
  rw [roundHalfEven]
  split_ifs with ha hb hc <;> push_cast <;> linarith

lemma qlog2up_spec : ∀ (f : ℕ) (x : ℚ), 1 ≤ x → x < 2 ^ f →
    (2 : ℚ) ^ qlog2up f x ≤ x ∧ x < 2 ^ (qlog2up f x + 1) := by
  intro f
  induction f with
  | zero =>
    intro x h1 h2
    rw [pow_zero] at h2
    linarith
  | succ f ih =>
    intro x h1 h2
    rw [qlog2up]
    by_cases h : 2 ≤ x
    · rw [if_pos h]
      have hx1 : (1 : ℚ) ≤ x / 2 := by linarith
      have hx2 : x / 2 < 2 ^ f := by
        rw [pow_succ] at h2
        linarith
      obtain ⟨ha, hb⟩ := ih (x / 2) hx1 hx2
      constructor
      · rw [pow_succ]
        linarith
      · rw [pow_succ]
        linarith
    · rw [if_neg h]
      push_neg at h
      exact ⟨by simpa using h1, by simpa using h⟩

lemma qlog2dn_of_one_le (f : ℕ) {x : ℚ} (h : 1 ≤ x) : qlog2dn f x = 0 := by
  cases f with
  | zero => rfl
  | succ f => rw [qlog2dn, if_neg (not_lt.mpr h)]

lemma qlog2dn_spec : ∀ (f : ℕ) (x : ℚ), 0 < x → 1 ≤ x * 2 ^ f →
    1 ≤ x * 2 ^ qlog2dn f x ∧ (x < 1 → x * 2 ^ qlog2dn f x < 2) := by
  intro f
  induction f with
  | zero =>
    intro x hx h1
    rw [pow_zero, mul_one] at h1
    rw [qlog2dn]
    constructor
    · rw [pow_zero, mul_one]
      exact h1
    · intro hc
      linarith
  | succ f ih =>
    intro x hx h1
    rw [qlog2dn]
    by_cases h : x < 1
    · rw [if_pos h]
      have he : (x * 2) * 2 ^ f = x * 2 ^ (f + 1) := by
        rw [pow_succ]
        ring
      obtain ⟨ha, hb⟩ := ih (x * 2) (by linarith) (by rw [he]; exact h1)
      have he2 : x * 2 ^ (qlog2dn f (x * 2) + 1)
          = (x * 2) * 2 ^ qlog2dn f (x * 2) := by
        rw [pow_succ]
        ring
      constructor
      · rw [he2]
        exact ha
      · intro _
        rw [he2]
        by_cases h2x : x * 2 < 1
        · exact hb h2x
        · push_neg at h2x
          rw [qlog2dn_of_one_le f h2x, pow_zero, mul_one]
          linarith
    · rw [if_neg h]
      push_neg at h
      constructor
      · rw [pow_zero, mul_one]
        exact h
      · intro hc
        linarith

lemma qlog2_fuel_up {x : ℚ} (hx : 1 ≤ x) : x < 2 ^ x.num.natAbs := by
  have hnum : 0 < x.num := Rat.num_pos.mpr (by linarith)
  have hden1 : (1 : ℚ) ≤ (x.den : ℚ) := by
    have := x.den_pos
    exact_mod_cast this
  have hxle : x ≤ (x.num : ℚ) := by
    conv_lhs => rw [← Rat.num_div_den x]
    exact div_le_self (by exact_mod_cast le_of_lt hnum) hden1
  have hcast : (x.num : ℚ) = (x.num.natAbs : ℚ) := by
    rw [Int.cast_natAbs, abs_of_nonneg (le_of_lt hnum)]
  have h2 : (x.num.natAbs : ℚ) < 2 ^ x.num.natAbs := by
    have := Nat.lt_two_pow x.num.natAbs
    exact_mod_cast this
  calc x ≤ (x.num : ℚ) := hxle
    _ = (x.num.natAbs : ℚ) := hcast
    _ < 2 ^ x.num.natAbs := h2

lemma qlog2_fuel_dn {x : ℚ} (hx : 0 < x) : 1 ≤ x * 2 ^ x.den := by
  have hnum : 0 < x.num := Rat.num_pos.mpr hx
  have hdpos : (0 : ℚ) < (x.den : ℚ) := by
    have := x.den_pos
    exact_mod_cast this
  have hge : (1 : ℚ) / (x.den : ℚ) ≤ x := by
    conv_rhs => rw [← Rat.num_div_den x]
    gcongr
    exact_mod_cast hnum
  have hden : (x.den : ℚ) ≤ 2 ^ x.den := by
    have := Nat.lt_two_pow x.den
    have h := le_of_lt this
    exact_mod_cast h
  calc (1 : ℚ) = (1 / (x.den : ℚ)) * (x.den : ℚ) := by field_simp
    _ ≤ x * 2 ^ x.den :=
        mul_le_mul hge hden (le_of_lt hdpos) (le_of_lt hx)

/-- The structural floor logarithm satisfies the binade specification. -/
lemma qlog2_spec {x : ℚ} (hx : 0 < x) :
    (2 : ℚ) ^ qlog2 x ≤ x ∧ x < (2 : ℚ) ^ (qlog2 x + 1) := by
  rw [qlog2]
  by_cases h : 1 ≤ x
  · rw [if_pos h]
    obtain ⟨ha, hb⟩ := qlog2up_spec x.num.natAbs x h (qlog2_fuel_up h)
    constructor
    · rw [zpow_natCast]
      exact ha
    · have he : ((qlog2up x.num.natAbs x : ℤ) + 1)
          = ((qlog2up x.num.natAbs x + 1 : ℕ) : ℤ) := by push_cast; ring
      rw [he, zpow_natCast]
      exact hb
  · rw [if_neg h]
    push_neg at h
    obtain ⟨ha, hb⟩ := qlog2dn_spec x.den x hx (qlog2_fuel_dn hx)
    have hblt := hb h
    have h2k : (0 : ℚ) < 2 ^ qlog2dn x.den x := by positivity
    constructor
    · rw [zpow_neg, zpow_natCast, inv_eq_one_div, div_le_iff h2k]
      exact ha
    · have he : (2 : ℚ) ^ (-(qlog2dn x.den x : ℤ) + 1) = 2 / 2 ^ qlog2dn x.den x := by
        rw [zpow_add₀ (by norm_num : (2 : ℚ) ≠ 0), zpow_neg, zpow_natCast, zpow_one]
        rw [inv_mul_eq_div]
      rw [he, lt_div_iff h2k]
      exact hblt

/-- The binade specification determines `qlog2` uniquely, which lets
concrete values be computed without unfolding the fuelled recursion. -/
lemma qlog2_eq_of {x : ℚ} {e : ℤ} (hx : 0 < x) (h1 : (2 : ℚ) ^ e ≤ x)
    (h2 : x < (2 : ℚ) ^ (e + 1)) : qlog2 x = e := by
  obtain ⟨ha, hb⟩ := qlog2_spec hx
  by_contra hne
  rcases lt_or_gt_of_ne hne with hlt | hgt
  · have hstep : qlog2 x + 1 ≤ e := by omega
    have := zpow_le_zpow_right₀ (by norm_num : (1 : ℚ) ≤ 2) hstep
    linarith
  · have hstep : e + 1 ≤ qlog2 x := by omega
    have := zpow_le_zpow_right₀ (by norm_num : (1 : ℚ) ≤ 2) hstep
    linarith

lemma roundHalfEven_eval_lt (n : ℤ) {m : ℚ} (hfl : ⌊m⌋ = n)
    (h : m - n < 1 / 2) : roundHalfEven m = n := by
  rw [roundHalfEven, hfl, if_pos h]

lemma roundHalfEven_eval_gt (n : ℤ) {m : ℚ} (hfl : ⌊m⌋ = n)
    (h : 1 / 2 < m - n) : roundHalfEven m = n + 1 := by
  rw [roundHalfEven, hfl, if_neg (by linarith), if_pos h]

/-- Evaluation rule for `rnd53` at a concrete positive rational with known
binade exponent `e`. -/
lemma rnd53_eval (e : ℤ) {x v : ℚ} (hx : 0 < x) (h1 : (2 : ℚ) ^ e ≤ x)
    (h2 : x < (2 : ℚ) ^ (e + 1))
    (hv : ((roundHalfEven (x * 2 ^ ((52 : ℤ) - e)) : ℤ) : ℚ) * 2 ^ (e - (52 : ℤ)) = v) :
    rnd53 x = v := by
  rw [rnd53, if_pos hx, qlog2_eq_of hx h1 h2]
  exact hv

lemma rnd53_nonneg (x : ℚ) : 0 ≤ rnd53 x := by
  rw [rnd53]
  split_ifs with hx
  · have hm : (0 : ℚ) ≤ x * 2 ^ (52 - qlog2 x) := by positivity
    have h1 : (0 : ℤ) ≤ roundHalfEven (x * 2 ^ (52 - qlog2 x)) :=
      roundHalfEven_nonneg hm
    have h2 : (0 : ℚ) ≤ (2 : ℚ) ^ (qlog2 x - 52) := by positivity
    exact mul_nonneg (by exact_mod_cast h1) h2
  · exact le_refl 0

/-- One binary64 rounding moves a non-negative value up by at most half an
ulp, i.e. a relative 2^-53. -/
lemma rnd53_le_mul {x : ℚ} (hx : 0 ≤ x) : rnd53 x ≤ x * (1 + 1 / 2 ^ 53) := by
  rw [rnd53]
  split_ifs with hpos
  · set e : ℤ := qlog2 x with he
    have h2ne : (2 : ℚ) ≠ 0 := by norm_num
    have hpow2 : (0 : ℚ) < (2 : ℚ) ^ (e - 52) := by positivity
    have hrhe : ((roundHalfEven (x * 2 ^ (52 - e)) : ℤ) : ℚ)
        ≤ x * 2 ^ (52 - e) + 1 / 2 := roundHalfEven_le _
    have hexp : (52 - e) + (e - 52) = (0 : ℤ) := by ring
    have hcancel : (2 : ℚ) ^ (52 - e) * (2 : ℚ) ^ (e - 52) = 1 := by
      rw [← zpow_add₀ h2ne, hexp, zpow_zero]
    have hlog : (2 : ℚ) ^ e ≤ x := (qlog2_spec hpos).1
    have hpow52 : (2 : ℚ) ^ (e - 52) * (2 : ℚ) ^ (52 : ℕ) = (2 : ℚ) ^ e := by
      rw [← zpow_natCast (2 : ℚ) 52, ← zpow_add₀ h2ne]
      congr 1
      push_cast
      ring
    have hkey : (1 / 2) * (2 : ℚ) ^ (e - 52) ≤ x / 2 ^ 53 := by
      have hp : (2 : ℚ) ^ (e - 52) = (2 : ℚ) ^ e / 2 ^ 52 := by
        rw [eq_div_iff (by positivity : ((2 : ℚ) ^ (52 : ℕ)) ≠ 0)]
        exact hpow52
      have hdiv : (2 : ℚ) ^ e / 2 ^ 53 ≤ x / 2 ^ 53 :=
        (div_le_div_right (by positivity)).mpr hlog
      rw [hp]
      have heq : (1 / 2) * ((2 : ℚ) ^ e / 2 ^ 52) = (2 : ℚ) ^ e / 2 ^ 53 := by
        ring
      rw [heq]
      exact hdiv
    calc ((roundHalfEven (x * 2 ^ (52 - e)) : ℤ) : ℚ) * 2 ^ (e - 52)
        ≤ (x * 2 ^ (52 - e) + 1 / 2) * 2 ^ (e - 52) :=
          mul_le_mul_of_nonneg_right hrhe (le_of_lt hpow2)
      _ = x * ((2 : ℚ) ^ (52 - e) * (2 : ℚ) ^ (e - 52))
            + (1 / 2) * (2 : ℚ) ^ (e - 52) := by ring
      _ = x + (1 / 2) * (2 : ℚ) ^ (e - 52) := by rw [hcancel, mul_one]
      _ ≤ x + x / 2 ^ 53 := by linarith [hkey]
      _ = x * (1 + 1 / 2 ^ 53) := by ring
  · have hx0 : x = 0 := le_antisymm (not_lt.mp hpos) hx
    rw [hx0]
    norm_num

lemma fpLuma_nonneg (r g b : ℕ) : 0 ≤ fpLuma r g b :=
  rnd53_nonneg _

/-- Through the five roundings the double luma stays below 256 for 8-bit
channels: the exact value is at most 255.0153 and each rounding adds at
most a relative 2^-53. -/
lemma fpLuma_lt_256 {r g b : ℕ} (hr : r ≤ 255) (hg : g ≤ 255) (hb : b ≤ 255) :
    fpLuma r g b < 256 := by
  have hk0 : (0 : ℚ) ≤ 1 + 1 / 2 ^ 53 := by norm_num
  have hr' : (r : ℚ) ≤ 255 := by exact_mod_cast hr
  have hg' : (g : ℚ) ≤ 255 := by exact_mod_cast hg
  have hb' : (b : ℚ) ≤ 255 := by exact_mod_cast hb
  have hr0 : (0 : ℚ) ≤ (r : ℚ) := Nat.cast_nonneg r
  have hg0 : (0 : ℚ) ≤ (g : ℚ) := Nat.cast_nonneg g
  have hb0 : (0 : ℚ) ≤ (b : ℚ) := Nat.cast_nonneg b
  have hw1n : (0 : ℚ) ≤ w2126 := rnd53_nonneg _
  have hw2n : (0 : ℚ) ≤ w71526 := rnd53_nonneg _
  have hw3n : (0 : ℚ) ≤ w0722 := rnd53_nonneg _
  have hw1 : w2126 ≤ 2127 / 10000 := by
    calc w2126 ≤ (2126 / 10000) * (1 + 1 / 2 ^ 53) :=
          rnd53_le_mul (by norm_num)
      _ ≤ 2127 / 10000 := by norm_num
  have hw2 : w71526 ≤ 71527 / 100000 := by
    calc w71526 ≤ (71526 / 100000) * (1 + 1 / 2 ^ 53) :=
          rnd53_le_mul (by norm_num)
      _ ≤ 71527 / 100000 := by norm_num
  have hw3 : w0722 ≤ 723 / 10000 := by
    calc w0722 ≤ (722 / 10000) * (1 + 1 / 2 ^ 53) :=
          rnd53_le_mul (by norm_num)
      _ ≤ 723 / 10000 := by norm_num
  set t1 : ℚ := rnd53 ((r : ℚ) * w2126) with ht1def
  set t2 : ℚ := rnd53 ((g : ℚ) * w71526) with ht2def
  set t3 : ℚ := rnd53 ((b : ℚ) * w0722) with ht3def
  have ht1n : (0 : ℚ) ≤ t1 := rnd53_nonneg _
  have ht2n : (0 : ℚ) ≤ t2 := rnd53_nonneg _
  have ht3n : (0 : ℚ) ≤ t3 := rnd53_nonneg _
  have ht1 : t1 ≤ 5425 / 100 := by
    have hxb : (r : ℚ) * w2126 ≤ 255 * (2127 / 10000) :=
      mul_le_mul hr' hw1 hw1n (by norm_num)
    calc t1 ≤ ((r : ℚ) * w2126) * (1 + 1 / 2 ^ 53) :=
          rnd53_le_mul (mul_nonneg hr0 hw1n)
      _ ≤ (255 * (2127 / 10000)) * (1 + 1 / 2 ^ 53) :=
          mul_le_mul_of_nonneg_right hxb hk0
      _ ≤ 5425 / 100 := by norm_num
  have ht2 : t2 ≤ 18240 / 100 := by
    have hxb : (g : ℚ) * w71526 ≤ 255 * (71527 / 100000) :=
      mul_le_mul hg' hw2 hw2n (by norm_num)
    calc t2 ≤ ((g : ℚ) * w71526) * (1 + 1 / 2 ^ 53) :=
          rnd53_le_mul (mul_nonneg hg0 hw2n)
      _ ≤ (255 * (71527 / 100000)) * (1 + 1 / 2 ^ 53) :=
          mul_le_mul_of_nonneg_right hxb hk0
      _ ≤ 18240 / 100 := by norm_num
  have ht3 : t3 ≤ 1844 / 100 := by
    have hxb : (b : ℚ) * w0722 ≤ 255 * (723 / 10000) :=
      mul_le_mul hb' hw3 hw3n (by norm_num)
    calc t3 ≤ ((b : ℚ) * w0722) * (1 + 1 / 2 ^ 53) :=
          rnd53_le_mul (mul_nonneg hb0 hw3n)
      _ ≤ (255 * (723 / 10000)) * (1 + 1 / 2 ^ 53) :=
          mul_le_mul_of_nonneg_right hxb hk0
      _ ≤ 1844 / 100 := by norm_num
  have hs1n : (0 : ℚ) ≤ rnd53 (t1 + t2) := rnd53_nonneg _
  have hs1 : rnd53 (t1 + t2) ≤ 23666 / 100 := by
    calc rnd53 (t1 + t2) ≤ (t1 + t2) * (1 + 1 / 2 ^ 53) :=
          rnd53_le_mul (add_nonneg ht1n ht2n)
      _ ≤ (5425 / 100 + 18240 / 100) * (1 + 1 / 2 ^ 53) :=
          mul_le_mul_of_nonneg_right (add_le_add ht1 ht2) hk0
      _ ≤ 23666 / 100 := by norm_num
  have hfinal : fpLuma r g b ≤ 25511 / 100 := by
    rw [fpLuma, ← ht1def, ← ht2def, ← ht3def]
    calc rnd53 (rnd53 (t1 + t2) + t3)
        ≤ (rnd53 (t1 + t2) + t3) * (1 + 1 / 2 ^ 53) :=
          rnd53_le_mul (add_nonneg hs1n ht3n)
      _ ≤ (23666 / 100 + 1844 / 100) * (1 + 1 / 2 ^ 53) :=
          mul_le_mul_of_nonneg_right (add_le_add hs1 ht3) hk0
      _ ≤ 25511 / 100 := by norm_num
  linarith

lemma lumaValFP_le_255 {r g b : ℕ} (hr : r ≤ 255) (hg : g ≤ 255) (hb : b ≤ 255) :
    lumaValFP r g b ≤ 255 := by
  have hlt : Nat.floor (fpLuma r g b) < 256 := by
    rw [Nat.floor_lt (fpLuma_nonneg r g b)]
    calc fpLuma r g b < 256 := fpLuma_lt_256 hr hg hb
      _ = ((256 : ℕ) : ℚ) := by norm_num
  rw [lumaValFP]
  omega

/-! Claim C8. -/

/-- Concrete pixel at which the double evaluation truncates below the
exact value: R = 1, G = 120, B = 221. -/
def rgbC : ℕ → ℕ :=
  fun j => if j = 0 then 1 else if j = 1 then 120 else if j = 2 then 221 else 0

/-- C8, counterexample: at (R, G, B) = (1, 120, 221) the exact luma
0.2126·1 + 0.71526·120 + 0.0722·221 is exactly 102, but the kernel's
per-operation binary64 evaluation lands just below 102
(at 7177611906121727 / 2^46 = 101.99999999999999), so the Channel Reducer
stores 101, not the truncated value of the exact expression.  The proof
evaluates the five roundings of the double computation exactly. -/
theorem c8_not_exact_truncation :
    rgb2greyK rgbC zf (3 * 1) 0
      ≠ Nat.floor ((0.2126 : ℚ) * rgbC 0 + 0.71526 * rgbC (0 + 1)
          + 0.0722 * rgbC (0 + 2 * 1)) := by
  have hc1v : rnd53 ((2126 : ℚ) / 10000) = ((1914930561557935 : ℚ) / 9007199254740992) := by
    have hfl : ⌊((2126 : ℚ) / 10000) * 2 ^ ((52 : ℤ) - (-3 : ℤ))⌋ = (7659722246231739 : ℤ) :=
      Int.floor_eq_iff.mpr ⟨by norm_num, by norm_num⟩
    have hrhe : roundHalfEven (((2126 : ℚ) / 10000) * 2 ^ ((52 : ℤ) - (-3 : ℤ))) = 7659722246231740 :=
      roundHalfEven_eval_gt (7659722246231739 : ℤ) hfl (by norm_num)
    exact rnd53_eval (-3 : ℤ) (by norm_num) (by norm_num) (by norm_num)
      (by rw [hrhe]; norm_num)
  have hc2v : rnd53 ((71526 : ℚ) / 100000) = ((3221244669473021 : ℚ) / 4503599627370496) := by
    have hfl : ⌊((71526 : ℚ) / 100000) * 2 ^ ((52 : ℤ) - (-1 : ℤ))⌋ = (6442489338946041 : ℤ) :=
      Int.floor_eq_iff.mpr ⟨by norm_num, by norm_num⟩
    have hrhe : roundHalfEven (((71526 : ℚ) / 100000) * 2 ^ ((52 : ℤ) - (-1 : ℤ))) = 6442489338946042 :=
      roundHalfEven_eval_gt (6442489338946041 : ℤ) hfl (by norm_num)
    exact rnd53_eval (-1 : ℤ) (by norm_num) (by norm_num) (by norm_num)
      (by rw [hrhe]; norm_num)
  have hc3v : rnd53 ((722 : ℚ) / 10000) = ((5202558289538397 : ℚ) / 72057594037927936) := by
    have hfl : ⌊((722 : ℚ) / 10000) * 2 ^ ((52 : ℤ) - (-4 : ℤ))⌋ = (5202558289538396 : ℤ) :=
      Int.floor_eq_iff.mpr ⟨by norm_num, by norm_num⟩
    have hrhe : roundHalfEven (((722 : ℚ) / 10000) * 2 ^ ((52 : ℤ) - (-4 : ℤ))) = 5202558289538397 :=
      roundHalfEven_eval_gt (5202558289538396 : ℤ) hfl (by norm_num)
    exact rnd53_eval (-4 : ℤ) (by norm_num) (by norm_num) (by norm_num)
      (by rw [hrhe]; norm_num)
  have ht1 : rnd53 ((1 : ℚ) * ((1914930561557935 : ℚ) / 9007199254740992)) = ((1914930561557935 : ℚ) / 9007199254740992) := by
    have hfl : ⌊((1 : ℚ) * ((1914930561557935 : ℚ) / 9007199254740992)) * 2 ^ ((52 : ℤ) - (-3 : ℤ))⌋ = (7659722246231740 : ℤ) :=
      Int.floor_eq_iff.mpr ⟨by norm_num, by norm_num⟩
    have hrhe : roundHalfEven (((1 : ℚ) * ((1914930561557935 : ℚ) / 9007199254740992)) * 2 ^ ((52 : ℤ) - (-3 : ℤ))) = 7659722246231740 :=
      roundHalfEven_eval_lt (7659722246231740 : ℤ) hfl (by norm_num)
    exact rnd53_eval (-3 : ℤ) (by norm_num) (by norm_num) (by norm_num)
      (by rw [hrhe]; norm_num)
  have ht2 : rnd53 ((120 : ℚ) * ((3221244669473021 : ℚ) / 4503599627370496)) = ((3019916877630957 : ℚ) / 35184372088832) := by
    have hfl : ⌊((120 : ℚ) * ((3221244669473021 : ℚ) / 4503599627370496)) * 2 ^ ((52 : ℤ) - (6 : ℤ))⌋ = (6039833755261914 : ℤ) :=
      Int.floor_eq_iff.mpr ⟨by norm_num, by norm_num⟩
    have hrhe : roundHalfEven (((120 : ℚ) * ((3221244669473021 : ℚ) / 4503599627370496)) * 2 ^ ((52 : ℤ) - (6 : ℤ))) = 6039833755261914 :=
      roundHalfEven_eval_lt (6039833755261914 : ℤ) hfl (by norm_num)
    exact rnd53_eval (6 : ℤ) (by norm_num) (by norm_num) (by norm_num)
      (by rw [hrhe]; norm_num)
  have ht3 : rnd53 ((221 : ℚ) * ((5202558289538397 : ℚ) / 72057594037927936)) = ((8982542046781139 : ℚ) / 562949953421312) := by
    have hfl : ⌊((221 : ℚ) * ((5202558289538397 : ℚ) / 72057594037927936)) * 2 ^ ((52 : ℤ) - (3 : ℤ))⌋ = (8982542046781138 : ℤ) :=
      Int.floor_eq_iff.mpr ⟨by norm_num, by norm_num⟩
    have hrhe : roundHalfEven (((221 : ℚ) * ((5202558289538397 : ℚ) / 72057594037927936)) * 2 ^ ((52 : ℤ) - (3 : ℤ))) = 8982542046781139 :=
      roundHalfEven_eval_gt (8982542046781138 : ℤ) hfl (by norm_num)
    exact rnd53_eval (3 : ℤ) (by norm_num) (by norm_num) (by norm_num)
      (by rw [hrhe]; norm_num)
  have hs1 : rnd53 (((1914930561557935 : ℚ) / 9007199254740992) + ((3019916877630957 : ℚ) / 35184372088832)) = ((6054794150274085 : ℚ) / 70368744177664) := by
    have hfl : ⌊(((1914930561557935 : ℚ) / 9007199254740992) + ((3019916877630957 : ℚ) / 35184372088832)) * 2 ^ ((52 : ℤ) - (6 : ℤ))⌋ = (6054794150274085 : ℤ) :=
      Int.floor_eq_iff.mpr ⟨by norm_num, by norm_num⟩
    have hrhe : roundHalfEven ((((1914930561557935 : ℚ) / 9007199254740992) + ((3019916877630957 : ℚ) / 35184372088832)) * 2 ^ ((52 : ℤ) - (6 : ℤ))) = 6054794150274085 :=
      roundHalfEven_eval_lt (6054794150274085 : ℤ) hfl (by norm_num)
    exact rnd53_eval (6 : ℤ) (by norm_num) (by norm_num) (by norm_num)
      (by rw [hrhe]; norm_num)
  have hs2 : rnd53 (((6054794150274085 : ℚ) / 70368744177664) + ((8982542046781139 : ℚ) / 562949953421312)) = ((7177611906121727 : ℚ) / 70368744177664) := by
    have hfl : ⌊(((6054794150274085 : ℚ) / 70368744177664) + ((8982542046781139 : ℚ) / 562949953421312)) * 2 ^ ((52 : ℤ) - (6 : ℤ))⌋ = (7177611906121727 : ℤ) :=
      Int.floor_eq_iff.mpr ⟨by norm_num, by norm_num⟩
    have hrhe : roundHalfEven ((((6054794150274085 : ℚ) / 70368744177664) + ((8982542046781139 : ℚ) / 562949953421312)) * 2 ^ ((52 : ℤ) - (6 : ℤ))) = 7177611906121727 :=
      roundHalfEven_eval_lt (7177611906121727 : ℤ) hfl (by norm_num)
    exact rnd53_eval (6 : ℤ) (by norm_num) (by norm_num) (by norm_num)
      (by rw [hrhe]; norm_num)
  have hw1 : w2126 = (1914930561557935 : ℚ) / 9007199254740992 := by
    unfold w2126
    exact hc1v
  have hw2 : w71526 = (3221244669473021 : ℚ) / 4503599627370496 := by
    unfold w71526
    exact hc2v
  have hw3 : w0722 = (5202558289538397 : ℚ) / 72057594037927936 := by
    unfold w0722
    exact hc3v
  have hfp : fpLuma 1 120 221 = (7177611906121727 : ℚ) / 70368744177664 := by
    rw [fpLuma, hw1, hw2, hw3]
    push_cast
    rw [ht1, ht2, ht3, hs1, hs2]
  have hV : lumaValFP 1 120 221 = 101 := by
    rw [lumaValFP, hfp]
    rw [Nat.floor_eq_iff (by norm_num)]
    constructor
    · norm_num
    · norm_num
  have hL : rgb2greyK rgbC zf (3 * 1) 0 = lumaValFP 1 120 221 % 256 := by
    rw [rgb2greyK]
    norm_num [rgbC]
  have hR : ((0.2126 : ℚ) * rgbC 0 + 0.71526 * rgbC (0 + 1)
      + 0.0722 * rgbC (0 + 2 * 1)) = ((102 : ℕ) : ℚ) := by
    norm_num [rgbC]
  rw [hL, hV, hR, Nat.floor_natCast]
  norm_num

/-- C8, amended: the Channel Reducer writes, for every pixel `i < N` of a
3-channel buffer of length `3N`, the truncated value of the kernel's
double-precision evaluation of `0.2126 R + 0.71526 G + 0.0722 B` (which at
a few inputs is one below the truncation of the exact expression) into all
three channel positions `i`, `i + N`, `i + 2N`, writes nothing beyond the
buffer, and for single-channel input the `identity` kernel copies the input
verbatim. -/
theorem c8_channel_reducer_double (A B₀ : ℕ → ℕ) (N : ℕ) :
    (∀ i, i < N → A i ≤ 255 → A (i + N) ≤ 255 → A (i + 2 * N) ≤ 255 →
        rgb2greyK A B₀ (3 * N) i = lumaValFP (A i) (A (i + N)) (A (i + 2 * N)) ∧
        rgb2greyK A B₀ (3 * N) (i + N) = lumaValFP (A i) (A (i + N)) (A (i + 2 * N)) ∧
        rgb2greyK A B₀ (3 * N) (i + 2 * N) = lumaValFP (A i) (A (i + N)) (A (i + 2 * N))) ∧
    (∀ j, 3 * N ≤ j → rgb2greyK A B₀ (3 * N) j = B₀ j) ∧
    (∀ (C C₀ : ℕ → ℕ) (len x : ℕ), x < len → C x ≤ 255 → identityK C C₀ len x = C x) := by
  have hdiv : 3 * N / 3 = N := by omega
  refine ⟨?_, ?_, ?_⟩
  · intro i hi h1 h2 h3
    have hmod : lumaValFP (A i) (A (i + N)) (A (i + 2 * N)) % 256
        = lumaValFP (A i) (A (i + N)) (A (i + 2 * N)) :=
      Nat.mod_eq_of_lt (by have := lumaValFP_le_255 h1 h2 h3; omega)
    have goal1 : rgb2greyK A B₀ (3 * N) i
        = lumaValFP (A i) (A (i + N)) (A (i + 2 * N)) := by
      rw [rgb2greyK]
      simp only [hdiv]
      rw [if_pos (by omega), Nat.mod_eq_of_lt hi, hmod]
    have goal2 : rgb2greyK A B₀ (3 * N) (i + N)
        = lumaValFP (A i) (A (i + N)) (A (i + 2 * N)) := by
      have hm : (i + N) % N = i := by rw [Nat.add_mod_right]; exact Nat.mod_eq_of_lt hi
      rw [rgb2greyK]
      simp only [hdiv]
      rw [if_pos (by omega), hm, hmod]
    have goal3 : rgb2greyK A B₀ (3 * N) (i + 2 * N)
        = lumaValFP (A i) (A (i + N)) (A (i + 2 * N)) := by
      have hm : (i + 2 * N) % N = i := by
        rw [Nat.add_mul_mod_self_right]
        exact Nat.mod_eq_of_lt hi
      rw [rgb2greyK]
      simp only [hdiv]
      rw [if_pos (by omega), hm, hmod]
    exact ⟨goal1, goal2, goal3⟩
  · intro j hj
    rw [rgb2greyK]
    simp only [hdiv]
    rw [if_neg (by omega)]
  · intro C C₀ len x hx hC
    rw [identityK, if_pos hx]
    exact Nat.mod_eq_of_lt (by omega)

/-- Concrete RGB buffer for one pixel: R = 10, G = 200, B = 50. -/
def rgbA : ℕ → ℕ := fun j => if j = 0 then 10 else if j = 1 then 200 else if j = 2 then 50 else 0

/-- C8, witness on the one-pixel RGB buffer. -/
theorem c8_channel_reducer_double_witness :
    rgb2greyK rgbA zf (3 * 1) 0 = lumaValFP (rgbA 0) (rgbA (0 + 1)) (rgbA (0 + 2 * 1)) ∧
    rgb2greyK rgbA zf (3 * 1) (0 + 1) = lumaValFP (rgbA 0) (rgbA (0 + 1)) (rgbA (0 + 2 * 1)) ∧
    rgb2greyK rgbA zf (3 * 1) (0 + 2 * 1) = lumaValFP (rgbA 0) (rgbA (0 + 1)) (rgbA (0 + 2 * 1)) :=
  (c8_channel_reducer_double rgbA zf 1).1 0 (by decide) (by decide) (by decide) (by decide)

/-! Claim C10. -/

/-- C10: for 8-bit channel values the exact luma lies in `[0, 256)` (it is
at most 255.0153), and the kernel's binary64 evaluation also lies in
`[0, 256)`, so the truncated value the kernel stores fits an unsigned 8-bit
destination with no wrap-around: it is at most 255 and reducing modulo 256
changes nothing. -/
theorem c10_luma_fits_uchar_double (r g b : ℕ) (hr : r ≤ 255) (hg : g ≤ 255)
    (hb : b ≤ 255) :
    (0 : ℚ) ≤ 0.2126 * r + 0.71526 * g + 0.0722 * b ∧
    (0.2126 * (r : ℚ) + 0.71526 * g + 0.0722 * b) ≤ 255.0153 ∧
    (0.2126 * (r : ℚ) + 0.71526 * g + 0.0722 * b) < 256 ∧
    0 ≤ fpLuma r g b ∧ fpLuma r g b < 256 ∧
    lumaValFP r g b ≤ 255 ∧ lumaValFP r g b % 256 = lumaValFP r g b := by
  have hr' : (r : ℚ) ≤ 255 := by exact_mod_cast hr
  have hg' : (g : ℚ) ≤ 255 := by exact_mod_cast hg
  have hb' : (b : ℚ) ≤ 255 := by exact_mod_cast hb
  have hr0 : (0 : ℚ) ≤ (r : ℚ) := Nat.cast_nonneg r
  have hg0 : (0 : ℚ) ≤ (g : ℚ) := Nat.cast_nonneg g
  have hb0 : (0 : ℚ) ≤ (b : ℚ) := Nat.cast_nonneg b
  have hle : lumaValFP r g b ≤ 255 := lumaValFP_le_255 hr hg hb
  exact ⟨by linarith, by linarith, by linarith, fpLuma_nonneg r g b,
    fpLuma_lt_256 hr hg hb, hle, Nat.mod_eq_of_lt (by omega)⟩

/-- C10, witness at the maximal channel values 255, 255, 255. -/
theorem c10_luma_double_witness :
    (0 : ℚ) ≤ 0.2126 * ((255 : ℕ) : ℚ) + 0.71526 * ((255 : ℕ) : ℚ)
        + 0.0722 * ((255 : ℕ) : ℚ) ∧
    (0.2126 * ((255 : ℕ) : ℚ) + 0.71526 * ((255 : ℕ) : ℚ)
        + 0.0722 * ((255 : ℕ) : ℚ)) ≤ 255.0153 ∧
    (0.2126 * ((255 : ℕ) : ℚ) + 0.71526 * ((255 : ℕ) : ℚ)
        + 0.0722 * ((255 : ℕ) : ℚ)) < 256 ∧
    0 ≤ fpLuma 255 255 255 ∧ fpLuma 255 255 255 < 256 ∧
    lumaValFP 255 255 255 ≤ 255 ∧ lumaValFP 255 255 255 % 256 = lumaValFP 255 255 255 :=
  c10_luma_fits_uchar_double 255 255 255 le_rfl le_rfl le_rfl

/-! Claim C7: the full pipeline on a uniform image. -/

lemma count_pixelList_const (A : ℕ → ℕ) (c : ℕ) : ∀ (len : ℕ),
    (∀ x, x < len → A x = c) →
    ∀ v, (pixelList A len).count v = if v = c then len else 0 := by
  intro len
  induction len with
  | zero =>
    intro _ v
    simp [pixelList]
  | succ n ih =>
    intro h v
    have hr : pixelList A (n + 1) = pixelList A n ++ [A n] := by
      rw [pixelList, pixelList, List.range_succ, List.map_append, List.map_singleton]
    have hone : List.count v [A n] = if v = c then 1 else 0 := by
      rw [h n (by omega)]
      by_cases hv : v = c
      · subst hv; simp
      · simp [hv]
    rw [hr, List.count_append, ih (fun x hx => h x (by omega)) v, hone]
    by_cases hv : v = c <;> simp [hv]

/-- C7: the complete pipeline as wired by the host — identity copy,
histogram, inclusive Hillis-Steele scan over the 256-bin histogram,
normalise of the buffer the host designated as the scan output, lookup on
the original image — maps the fully uniform image (every pixel 128) to the
image in which every pixel is 255, for any contents of the uninitialised
intermediate buffers. -/
theorem c7_uniform_image_all_255 (len : ℕ) (sB nB oB : ℕ → ℕ) (j : ℕ)
    (hj : j < len) :
    pipelineK (fun _ => 128) len sB nB oB j = 255 := by
  have hlen0 : 0 < len := by omega
  have hgrey : ∀ x, x < len → identityK (fun _ => 128) (fun _ => 0) len x = 128 := by
    intro x hx
    rw [identityK, if_pos hx]
  have hcnt : ∀ v,
      naiveHistK (pixelList (identityK (fun _ => 128) (fun _ => 0) len) len) v
        = if v = 128 then len else 0 := by
    intro v
    rw [naiveHistK_count, count_pixelList_const _ 128 len hgrey]
  have hcum128 :
      (cumulativeHistogram 256
        (naiveHistK (pixelList (identityK (fun _ => 128) (fun _ => 0) len) len)) sB).2 128
      = len := by
    rw [scan256_snd _ sB 128 (by norm_num), wsum]
    have hico : Finset.Ico (128 + 1 - 128) (128 + 1) = Finset.Ico 1 129 := by norm_num
    rw [hico, Finset.sum_congr rfl (fun x _ => hcnt x), Finset.sum_ite_eq']
    simp
  have hcum255 :
      (cumulativeHistogram 256
        (naiveHistK (pixelList (identityK (fun _ => 128) (fun _ => 0) len) len)) sB).2 255
      = len := by
    rw [scan256_snd _ sB 255 (by norm_num), wsum]
    have hico : Finset.Ico (255 + 1 - 128) (255 + 1) = Finset.Ico 128 256 := by norm_num
    rw [hico, Finset.sum_congr rfl (fun x _ => hcnt x), Finset.sum_ite_eq']
    simp
  have hnorm :
      normaliseK
        ((cumulativeHistogram 256
          (naiveHistK (pixelList (identityK (fun _ => 128) (fun _ => 0) len) len)) sB).2)
        nB 256 128 = 255 := by
    rw [normaliseK, if_pos (by norm_num : (128 : ℕ) < 256), hcum128, hcum255,
      Nat.mul_div_cancel_left 255 hlen0]
  show lookupSrcK (fun _ => 128) len
      (normaliseK
        ((cumulativeHistogram 256
          (naiveHistK (pixelList (identityK (fun _ => 128) (fun _ => 0) len) len)) sB).2)
        nB 256) oB j = 255
  rw [lookupSrcK, if_pos hj]
  show normaliseK
      ((cumulativeHistogram 256
        (naiveHistK (pixelList (identityK (fun _ => 128) (fun _ => 0) len) len)) sB).2)
      nB 256 128 % 256 = 255
  rw [hnorm]

/-- C7, witness on a three-pixel uniform image. -/
theorem c7_uniform_image_witness :
    pipelineK (fun _ => 128) 3 zf zf zf 0 = 255 :=
  c7_uniform_image_all_255 3 zf zf zf 0 (by norm_num)

end HistEq
